import Mathlib

/-!
Verification of the timed-caption serialization and duration formatting in
src/app.py (functions format_time and the SRT-writing loop of
transcribe_audio).

Modelling conventions:
- Python floats are modelled as exact rationals: every IEEE-754 double is a
  rational number, and Python arithmetic on the values involved (floor
  division, modulo by positive constants) agrees with exact rational
  arithmetic on the value the float denotes.
- Python string formatting with a fixed number of fractional digits
  (the .2f and 06.3f format specs) is correctly rounded, round-half-to-even,
  of the value being formatted; this is CPython's documented behaviour.
  It is modelled by rndHE below.
- Python str.strip() is modelled over the ASCII whitespace characters
  (space, tab, newline, carriage return), the only ones occurring in
  transcription output.
-/

/-- Decimal digit character for a value below ten. -/
def digitChar (n : Nat) : Char :=
  match n with
  | 0 => '0' | 1 => '1' | 2 => '2' | 3 => '3' | 4 => '4'
  | 5 => '5' | 6 => '6' | 7 => '7' | 8 => '8' | 9 => '9'
  | _ => '*'

/-- Fuel-driven accumulator loop producing the decimal digits of a number,
most significant first, in front of the accumulator. -/
def natDigitsAux : Nat → Nat → List Char → List Char
  | 0, _, acc => acc
  | fuel + 1, n, acc =>
    if n = 0 then acc else natDigitsAux fuel (n / 10) (digitChar (n % 10) :: acc)

/-- Decimal digit list of a natural number, as Python str renders an int. -/
def natDigits (n : Nat) : List Char :=
  if n = 0 then ['0'] else natDigitsAux (n + 1) n []

/-- Decimal rendering of a natural number, modelling Python str on a
non-negative int. -/
def natToStr (n : Nat) : String :=
  ⟨natDigits n⟩

/-- A character is a decimal digit. -/
def isDigitCh (c : Char) : Bool :=
  48 ≤ c.toNat && c.toNat ≤ 57

/-- Numeric value of a digit list read most significant first. -/
def digitsVal (l : List Char) : Nat :=
  l.foldl (fun a c => 10 * a + (c.toNat - 48)) 0

/-- Zero-pad the decimal rendering of a number to at least two characters,
modelling the Python format spec 02d on a non-negative int: values of one
hundred or more keep all their digits. -/
def pad2 (n : Nat) : String :=
  if n < 10 then "0" ++ natToStr n else natToStr n

/-- Zero-pad the decimal rendering of a number to at least three characters. -/
def pad3 (n : Nat) : String :=
  if n < 10 then "00" ++ natToStr n
  else if n < 100 then "0" ++ natToStr n
  else natToStr n

/-- Split a character list at every occurrence of a separator character; the
separators are consumed and the fragments between them are returned, so the
result always has one more fragment than there are separators. -/
def splitOnCh (c : Char) : List Char → List (List Char)
  | [] => [[]]
  | x :: xs =>
    if x = c then [] :: splitOnCh c xs
    else
      match splitOnCh c xs with
      | [] => [[x]]
      | y :: ys => (x :: y) :: ys

/-- Join a list of lines with single newline separators, inverse to splitting
a character list on the newline character. -/
def joinLines : List (List Char) → List Char
  | [] => []
  | [l] => l
  | l :: ls => l ++ '\n' :: joinLines ls

/-- ASCII whitespace, the characters that Python str.strip removes in the
strings this program produces. -/
def isWS (c : Char) : Bool :=
  c = ' ' || c = '\t' || c = '\n' || c = '\r'

/-- Model of the Python method str.strip with no arguments: remove leading and
trailing whitespace. -/
def pyStrip (s : String) : String :=
  ⟨((s.data.dropWhile isWS).reverse.dropWhile isWS).reverse⟩

/-- Model of the Python method str.replace with two one-character arguments:
replace every occurrence of the first character by the second. -/
def pyReplaceChar (s : String) (c d : Char) : String :=
  ⟨s.data.map (fun x => if x = c then d else x)⟩

/-- Python float modulo for the cases arising here: x - y * floor (x / y),
which for a positive modulus y agrees with the Python expression x % y. -/
def fmod (x y : ℚ) : ℚ :=
  x - y * ⌊x / y⌋

/-- Round to the nearest integer, ties to the even neighbour: the rounding
that CPython applies when formatting a float with a fixed number of
fractional digits. -/
def rndHE (x : ℚ) : ℤ :=
  if Int.fract x < 1/2 then ⌊x⌋
  else if 1/2 < Int.fract x then ⌊x⌋ + 1
  else if ⌊x⌋ % 2 = 0 then ⌊x⌋ else ⌊x⌋ + 1

/-- The millisecond count that the serializer renders for a time t: the
correctly rounded value of 1000 t. -/
def msVal (t : ℚ) : Nat :=
  (rndHE (1000 * t)).toNat

/-- A transcription segment as produced by the external model and consumed by
the SRT-writing loop of transcribe_audio: a start time, an end time (the field
is named stop here because of the Lean keyword) and a text, the times in
seconds. Fields mirror the keys start, end, text read in src/app.py lines
49-51. -/
structure Segment where
  start : ℚ
  stop : ℚ
  text : String

/-- A transcription result as returned by the external model: the full text
and the list of segments; mirrors the keys of the result dict used in
src/app.py. -/
structure Transcript where
  text : String
  segments : List Segment

/-- The Python format expression with spec .2f applied to a value: the value
correctly rounded to two fractional digits, rendered with at least one integer
digit, a dot, exactly two fractional digits, and a leading minus sign for
negative values. -/
def fmtF2 (q : ℚ) : String :=
  if q < 0 then
    "-" ++ natToStr ((rndHE (100 * -q)).toNat / 100) ++ "." ++
      pad2 ((rndHE (100 * -q)).toNat % 100)
  else
    natToStr ((rndHE (100 * q)).toNat / 100) ++ "." ++ pad2 ((rndHE (100 * q)).toNat % 100)

/-- Model of format_time from src/app.py lines 7-17. The Python int() casts
truncate toward zero; in the branch where they are evaluated the operands are
non-negative (seconds is at least 60 there), so they agree with the floor and
the Int.toNat below. -/
def format_time (seconds : ℚ) : String :=
  if seconds < 60 then fmtF2 seconds ++ " sec"
  else
    let minutes := (⌊seconds / 60⌋).toNat
    let remaining_seconds := (⌊fmod seconds 60⌋).toNat
    let time_parts :=
      (if 0 < minutes then [natToStr minutes ++ " min"] else []) ++
        (if 0 < remaining_seconds then [natToStr remaining_seconds ++ " sec"] else [])
    String.intercalate " " time_parts

/-- The Python format expression with spec 06.3f applied to a non-negative
value: the value correctly rounded to three fractional digits, zero-padded to
a total width of six, which for three fractional digits and the dot means an
integer part of at least two digits. -/
def fmt063 (q : ℚ) : String :=
  pad2 ((rndHE (1000 * q)).toNat / 1000) ++ "." ++ pad3 ((rndHE (1000 * q)).toNat % 1000)

/-- Model of the timestamp expression of src/app.py lines 52-53 applied to a
non-negative time t: the f-string rendering hours, minutes and 06.3f seconds
separated by colons, followed by the replace call turning the dot into a
comma. -/
def formatTimestamp (t : ℚ) : String :=
  pyReplaceChar
    (pad2 (⌊t / 3600⌋).toNat ++ ":" ++ pad2 (⌊fmod t 3600 / 60⌋).toNat ++ ":" ++
      fmt063 (fmod t 60)) '.' ','

/-- Timestamp format exactly as the specification words it, built field by
field: HH is floor (t / 3600) zero-padded to two digits, MM is
floor ((t mod 3600) / 60) zero-padded to two digits, and the seconds part is
t mod 60 rendered with a two-digit zero-padded integer part and exactly three
fractional digits with a comma in place of the decimal point. Stated as a
separate definition so that its equality with formatTimestamp (which instead
applies a global character replacement to the whole string) is a theorem. -/
def specTimestamp (t : ℚ) : String :=
  pad2 (⌊t / 3600⌋).toNat ++ ":" ++ pad2 (⌊fmod t 3600 / 60⌋).toNat ++ ":" ++
    pad2 ((rndHE (1000 * fmod t 60)).toNat / 1000) ++ "," ++
    pad3 ((rndHE (1000 * fmod t 60)).toNat % 1000)

/-- The timestamp line of one SRT entry: start and end timestamps separated by
the arrow, as written by src/app.py line 55. -/
def tsLine (s : Segment) : String :=
  formatTimestamp s.start ++ " --> " ++ formatTimestamp s.stop

/-- One SRT entry as written by the three write calls of src/app.py lines
54-56: the index line, the timestamp line, the stripped text and a blank
line. -/
def entryBlock (i : Nat) (s : Segment) : String :=
  natToStr i ++ "\n" ++ tsLine s ++ "\n" ++ pyStrip s.text ++ "\n\n"

/-- The loop of src/app.py lines 48-56 starting from index i: the file content
contributed by the remaining segments. -/
def srtAux : Nat → List Segment → String
  | _, [] => ""
  | i, s :: rest => entryBlock i s ++ srtAux (i + 1) rest

/-- The full content of the SRT file written by transcribe_audio for a given
segment list: the loop of src/app.py lines 48-56 with enumerate starting at
one. -/
def srtContent (segs : List Segment) : String :=
  srtAux 1 segs

/-- The successive strings passed to the file write calls by the loop of
src/app.py lines 48-56, in order: three calls per segment. -/
def srtWriteCalls (segs : List Segment) : List String :=
  (segs.enumFrom 1).flatMap fun p =>
    [natToStr p.1 ++ "\n", tsLine p.2 ++ "\n", pyStrip p.2.text ++ "\n\n"]

/-- Observable outcome of one transcribe_audio call: the content of the SRT
file on disk when the call ends (none when the file was never opened), and
whether the call raised. -/
structure TranscribeOutcome where
  srtFile : Option String
  failed : Bool
  deriving DecidableEq

/-- Model of transcribe_audio from src/app.py lines 19-78, abstracting its
two effect sources: the external model call, given as an Except value
(error when whisper raises), and the file system, given as the number of
write calls that complete before an I/O error is raised (a budget at least
the number of calls means no I/O failure). The model call happens before the
SRT file is opened, so a transcription error leaves no file; the with-open
block writes incrementally, and the except branch of lines 74-78 re-raises
without removing the file, so an I/O error mid-loop leaves the prefix already
written on disk. -/
def transcribe_audio (transcription : Except String Transcript)
    (writeBudget : Nat) : TranscribeOutcome :=
  match transcription with
  | .error _ => ⟨none, true⟩
  | .ok result =>
    let calls := srtWriteCalls result.segments
    if calls.length ≤ writeBudget then ⟨some (String.join calls), false⟩
    else ⟨some (String.join (calls.take writeBudget)), true⟩

/-- Modelled from the spec: src contains no caption reader, and the round-trip
property of spec section 8 refers to a standard caption-format reader; this
reads a non-empty all-digit character list as a decimal number, the first step
of such a reader. -/
def readNat (l : List Char) : Option Nat :=
  if l.isEmpty then none
  else if l.all isDigitCh then some (digitsVal l) else none

/-- Modelled from the spec: the timestamp field of a standard SRT reader,
HH:MM:SS and a comma-separated millisecond field, yielding the total number of
milliseconds the timestamp denotes. -/
def readTimestamp (l : List Char) : Option Nat :=
  match splitOnCh ':' l with
  | [hh, mm, rest] =>
    match splitOnCh ',' rest with
    | [ss, mmm] =>
      match readNat hh, readNat mm, readNat ss, readNat mmm with
      | some h, some m, some s, some f => some (h * 3600000 + m * 60000 + s * 1000 + f)
      | _, _, _, _ => none
    | _ => none
  | _ => none

/-- The timestamp reader lifted to strings, used to state what value a
rendered timestamp denotes. -/
def parseTimestamp (s : String) : Option Nat :=
  readTimestamp s.data

/-- Modelled from the spec: the timestamp line of a standard SRT reader, two
timestamps separated by the arrow. -/
def readTsLine (l : List Char) : Option (Nat × Nat) :=
  match splitOnCh ' ' l with
  | [a, arrow, b] =>
    if arrow = ['-', '-', '>'] then
      match readTimestamp a, readTimestamp b with
      | some x, some y => some (x, y)
      | _, _ => none
    else none
  | _ => none

/-- Modelled from the spec: a standard SRT reader over a list of lines. It
skips blank lines between entries, then reads an index line made of digits, a
timestamp line, and the text lines up to the next blank line, joined back with
newlines. Entries are returned in file order as (start milliseconds, end
milliseconds, text). The first argument is fuel bounding the recursion depth;
one unit is spent per line group, so the number of lines always suffices. -/
def readBlocks : Nat → List (List Char) → Option (List (Nat × Nat × String))
  | _, [] => some []
  | 0, _ :: _ => none
  | fuel + 1, l :: ls =>
    if l.isEmpty then readBlocks fuel ls
    else
      match ls with
      | [] => none
      | tsl :: rest =>
        match readNat l, readTsLine tsl with
        | some _, some (st, en) =>
          match readBlocks fuel ((rest.dropWhile (fun x => !x.isEmpty)).drop 1) with
          | some es =>
            some ((st, en, (⟨joinLines (rest.takeWhile (fun x => !x.isEmpty))⟩ : String)) :: es)
          | none => none
        | _, _ => none

/-- Modelled from the spec: the standard SRT reader applied to a whole file:
split into lines on newline characters and read the entries. -/
def readSRT (s : String) : Option (List (Nat × Nat × String)) :=
  readBlocks (splitOnCh '\n' s.data).length (splitOnCh '\n' s.data)

theorem digitChar_toNat {n : Nat} (h : n < 10) : (digitChar n).toNat = 48 + n := by
  interval_cases n <;> rfl

theorem isDigitCh_digitChar {n : Nat} (h : n < 10) : isDigitCh (digitChar n) = true := by
  interval_cases n <;> rfl

theorem natDigitsAux_acc (fuel : Nat) :
    ∀ (n : Nat) (acc : List Char),
      natDigitsAux fuel n acc = natDigitsAux fuel n [] ++ acc := by
  induction fuel with
  | zero => intro n acc; simp [natDigitsAux]
  | succ fuel ih =>
    intro n acc
    by_cases h : n = 0
    · simp [natDigitsAux, h]
    · rw [natDigitsAux, natDigitsAux, if_neg h, if_neg h, ih (n / 10),
        ih (n / 10) [digitChar (n % 10)]]
      simp

theorem natDigitsAux_fuel (fuel₁ fuel₂ : Nat) :
    ∀ (n : Nat) (acc : List Char), n < fuel₁ → n < fuel₂ →
      natDigitsAux fuel₁ n acc = natDigitsAux fuel₂ n acc := by
  induction fuel₁ generalizing fuel₂ with
  | zero => intro n acc h₁ _; omega
  | succ f₁ ih =>
    intro n acc h₁ h₂
    cases fuel₂ with
    | zero => omega
    | succ f₂ =>
      by_cases h : n = 0
      · simp [natDigitsAux, h]
      · rw [natDigitsAux, natDigitsAux, if_neg h, if_neg h]
        exact ih f₂ (n / 10) _ (by omega) (by omega)

theorem natDigitsAux_mem (fuel : Nat) :
    ∀ (n : Nat) (acc : List Char) (c : Char), c ∈ natDigitsAux fuel n acc →
      c ∈ acc ∨ isDigitCh c = true := by
  induction fuel with
  | zero => intro n acc c h; exact Or.inl (by simpa [natDigitsAux] using h)
  | succ fuel ih =>
    intro n acc c h
    by_cases hn : n = 0
    · exact Or.inl (by simpa [natDigitsAux, hn] using h)
    · rw [natDigitsAux, if_neg hn] at h
      rcases ih (n / 10) _ c h with h' | h'
      · rcases List.mem_cons.mp h' with h'' | h''
        · exact Or.inr (h'' ▸ isDigitCh_digitChar (Nat.mod_lt n (by norm_num)))
        · exact Or.inl h''
      · exact Or.inr h'

theorem natDigits_digits {c : Char} {n : Nat} (h : c ∈ natDigits n) :
    isDigitCh c = true := by
  unfold natDigits at h
  by_cases hn : n = 0
  · simp [hn] at h; subst h; rfl
  · rw [if_neg hn] at h
    rcases natDigitsAux_mem _ _ _ _ h with h' | h'
    · simp at h'
    · exact h'

theorem natDigits_ne_nil (n : Nat) : natDigits n ≠ [] := by
  unfold natDigits
  by_cases hn : n = 0
  · simp [hn]
  · rw [if_neg hn, natDigitsAux, if_neg hn, natDigitsAux_acc]
    simp

theorem digitsVal_append (l₁ l₂ : List Char) :
    digitsVal (l₁ ++ l₂) =
      l₂.foldl (fun a c => 10 * a + (c.toNat - 48)) (digitsVal l₁) := by
  simp [digitsVal, List.foldl_append]

theorem digitsVal_natDigits (n : Nat) : digitsVal (natDigits n) = n := by
  induction n using Nat.strong_induction_on with
  | _ n ih =>
    by_cases hn : n = 0
    · subst hn; rfl
    · have hlt : n / 10 < n := Nat.div_lt_self (Nat.pos_of_ne_zero hn) (by norm_num)
      unfold natDigits
      rw [if_neg hn, natDigitsAux, if_neg hn, natDigitsAux_acc]
      by_cases h10 : n / 10 = 0
      · have : natDigitsAux n (n / 10) [] = [] := by
          cases n with
          | zero => simp at hn
          | succ m => rw [natDigitsAux, if_pos h10]
        rw [this]
        simp [digitsVal, digitChar_toNat (Nat.mod_lt n (by norm_num))]
        omega
      · have hfuel : natDigitsAux n (n / 10) [] = natDigitsAux (n / 10 + 1) (n / 10) [] :=
          natDigitsAux_fuel _ _ _ _ hlt (by omega)
        have hrec : digitsVal (natDigits (n / 10)) = n / 10 := ih _ hlt
        unfold natDigits at hrec
        rw [if_neg h10] at hrec
        rw [hfuel, digitsVal_append]
        simp only [List.foldl_cons, List.foldl_nil]
        rw [hrec, digitChar_toNat (Nat.mod_lt n (by norm_num))]
        omega

theorem splitOnCh_ne_nil (c : Char) (l : List Char) : splitOnCh c l ≠ [] := by
  cases l with
  | nil => simp [splitOnCh]
  | cons x xs =>
    rw [splitOnCh]
    by_cases h : x = c
    · simp [h]
    · rw [if_neg h]
      cases splitOnCh c xs <;> simp

theorem splitOnCh_not_mem {c : Char} {l : List Char} (h : c ∉ l) :
    splitOnCh c l = [l] := by
  induction l with
  | nil => rfl
  | cons x xs ih =>
    rw [splitOnCh, if_neg (by intro hx; exact h (hx ▸ List.mem_cons_self x xs)),
      ih (fun hx => h (List.mem_cons_of_mem x hx))]

theorem splitOnCh_append_cons (c : Char) (l₁ l₂ : List Char) :
    splitOnCh c (l₁ ++ c :: l₂) = splitOnCh c l₁ ++ splitOnCh c l₂ := by
  induction l₁ with
  | nil => simp [splitOnCh]
  | cons x xs ih =>
    by_cases h : x = c
    · subst h
      simp [splitOnCh, ih]
    · have h₁ := splitOnCh_ne_nil c xs
      cases hs : splitOnCh c xs with
      | nil => exact absurd hs h₁
      | cons y ys =>
        simp only [List.cons_append, splitOnCh, if_neg h, ih, hs]
        rw [List.append_eq, ih, hs]
        simp

theorem joinLines_splitOnCh (l : List Char) :
    joinLines (splitOnCh '\n' l) = l := by
  induction l with
  | nil => rfl
  | cons x xs ih =>
    rw [splitOnCh]
    by_cases h : x = '\n'
    · subst h
      rw [if_pos rfl]
      have h₁ := splitOnCh_ne_nil '\n' xs
      cases hs : splitOnCh '\n' xs with
      | nil => exact absurd hs h₁
      | cons y ys =>
        rw [hs] at ih
        simp only [joinLines]
        rw [ih]
        simp
    · rw [if_neg h]
      have h₁ := splitOnCh_ne_nil '\n' xs
      cases hs : splitOnCh '\n' xs with
      | nil => exact absurd hs h₁
      | cons y ys =>
        rw [hs] at ih
        cases ys with
        | nil => simpa [joinLines] using ih
        | cons z zs => simpa [joinLines] using ih

theorem takeWhile_append_stop {α : Type} (p : α → Bool) (l₁ l₂ : List α) (a : α)
    (h : ∀ x ∈ l₁, p x = true) (ha : p a = false) :
    (l₁ ++ a :: l₂).takeWhile p = l₁ ∧ (l₁ ++ a :: l₂).dropWhile p = a :: l₂ := by
  induction l₁ with
  | nil => simp [List.takeWhile, List.dropWhile, ha]
  | cons x xs ih =>
    have hx : p x = true := h x (List.mem_cons_self x xs)
    have := ih (fun y hy => h y (List.mem_cons_of_mem x hy))
    simp [List.takeWhile, List.dropWhile, hx, this.1, this.2]

theorem rndHE_intCast (k : ℤ) : rndHE (k : ℚ) = k := by
  unfold rndHE
  rw [Int.fract_intCast, Int.floor_intCast]
  norm_num

theorem rndHE_natCast (k : Nat) : rndHE (k : ℚ) = k := by
  have : ((k : ℤ) : ℚ) = (k : ℚ) := by push_cast; ring
  rw [← this, rndHE_intCast]

theorem floor_le_rndHE (x : ℚ) : ⌊x⌋ ≤ rndHE x := by
  unfold rndHE
  split
  · exact le_refl _
  · split
    · omega
    · split <;> omega

theorem rndHE_le_floor_add_one (x : ℚ) : rndHE x ≤ ⌊x⌋ + 1 := by
  unfold rndHE
  split
  · omega
  · split
    · omega
    · split <;> omega

theorem rndHE_nonneg {x : ℚ} (h : 0 ≤ x) : 0 ≤ rndHE x :=
  le_trans (Int.floor_nonneg.mpr h) (floor_le_rndHE x)

theorem rndHE_eq_down {x : ℚ} {n : ℤ} (h1 : (n : ℚ) ≤ x) (h2 : x < n + 1/2) :
    rndHE x = n := by
  have hf : ⌊x⌋ = n := Int.floor_eq_iff.mpr ⟨h1, by linarith⟩
  have hfr : Int.fract x < 1/2 := by
    rw [Int.fract, hf]
    linarith
  unfold rndHE
  rw [if_pos hfr, hf]

theorem rndHE_eq_up {x : ℚ} {n : ℤ} (h1 : (n : ℚ) - 1/2 < x) (h2 : x ≤ n) :
    rndHE x = n := by
  rcases eq_or_lt_of_le h2 with heq | hlt
  · rw [heq, rndHE_intCast]
  · have hf : ⌊x⌋ = n - 1 := by
      apply Int.floor_eq_iff.mpr
      constructor
      · push_cast; linarith
      · push_cast; linarith
    have hfr : 1/2 < Int.fract x := by
      rw [Int.fract]
      push_cast [hf]
      linarith
    unfold rndHE
    rw [if_neg (by linarith), if_pos hfr, hf]
    omega

theorem rndHE_add_even (x : ℚ) (k : ℤ) (hk : k % 2 = 0) :
    rndHE (x + k) = rndHE x + k := by
  unfold rndHE
  rw [Int.fract_add_int, Int.floor_add_int]
  by_cases h1 : Int.fract x < 1/2
  · rw [if_pos h1, if_pos h1]
  · by_cases h2 : 1/2 < Int.fract x
    · rw [if_neg h1, if_neg h1, if_pos h2, if_pos h2]; ring
    · rw [if_neg h1, if_neg h1, if_neg h2, if_neg h2]
      by_cases h3 : ⌊x⌋ % 2 = 0
      · rw [if_pos h3, if_pos (by omega)]
      · rw [if_neg h3, if_neg (by omega)]; ring

theorem rndHE_mono {x y : ℚ} (h : x ≤ y) : rndHE x ≤ rndHE y := by
  rcases lt_or_eq_of_le (Int.floor_mono h) with hf | hf
  · calc rndHE x ≤ ⌊x⌋ + 1 := rndHE_le_floor_add_one x
      _ ≤ ⌊y⌋ := by omega
      _ ≤ rndHE y := floor_le_rndHE y
  · by_cases hxy : x = y
    · rw [hxy]
    · have hlt : x < y := lt_of_le_of_ne h hxy
      have hfr : Int.fract x < Int.fract y := by
        rw [Int.fract, Int.fract, hf]
        linarith
      unfold rndHE
      by_cases hy1 : Int.fract y < 1/2
      · rw [if_pos (lt_trans hfr hy1), if_pos hy1, hf]
      · by_cases hx1 : Int.fract x < 1/2
        · rw [if_pos hx1, if_neg hy1, hf]
          split
          · omega
          · split <;> omega
        · have hy2 : 1/2 < Int.fract y := lt_of_le_of_lt (le_of_not_lt hx1) hfr
          rw [if_neg hx1, if_neg hy1, if_pos hy2, hf]
          split
          · omega
          · split <;> omega

theorem fmod_nonneg {x y : ℚ} (hy : 0 < y) : 0 ≤ fmod x y := by
  unfold fmod
  have h1 : (⌊x / y⌋ : ℚ) ≤ x / y := Int.floor_le _
  have h2 : y * (⌊x / y⌋ : ℚ) ≤ y * (x / y) := by
    exact mul_le_mul_of_nonneg_left h1 hy.le
  rw [mul_div_cancel₀ x hy.ne.symm] at h2
  linarith

theorem fmod_lt {x y : ℚ} (hy : 0 < y) : fmod x y < y := by
  unfold fmod
  have h1 : x / y < ⌊x / y⌋ + 1 := Int.lt_floor_add_one _
  have h2 : y * (x / y) < y * ((⌊x / y⌋ : ℚ) + 1) := by
    exact mul_lt_mul_of_pos_left h1 hy
  rw [mul_div_cancel₀ x hy.ne.symm] at h2
  nlinarith

theorem floor_sixty (t : ℚ) : ⌊t / 60⌋ = 60 * ⌊t / 3600⌋ + ⌊fmod t 3600 / 60⌋ := by
  have key : fmod t 3600 / 60 = t / 60 - ((60 * ⌊t / 3600⌋ : ℤ) : ℚ) := by
    unfold fmod
    push_cast
    ring
  rw [key, Int.floor_sub_int]
  omega

theorem ms_decompose (t : ℚ) :
    3600000 * ⌊t / 3600⌋ + 60000 * ⌊fmod t 3600 / 60⌋ + rndHE (1000 * fmod t 60) =
      rndHE (1000 * t) := by
  have key : 1000 * fmod t 60 = 1000 * t + ((-(60000 * ⌊t / 60⌋) : ℤ) : ℚ) := by
    unfold fmod
    push_cast
    ring
  rw [key, rndHE_add_even _ _ (by omega)]
  have h60 := floor_sixty t
  omega

theorem not_mem_of_digits {l : List Char} (hl : ∀ c ∈ l, isDigitCh c = true)
    {c : Char} (hc : isDigitCh c = false) : c ∉ l := by
  intro hmem
  rw [hl c hmem] at hc
  cases hc

theorem natToStr_digits {n : Nat} {c : Char} (h : c ∈ (natToStr n).data) :
    isDigitCh c = true :=
  natDigits_digits (by simpa [natToStr] using h)

theorem pad2_digits (n : Nat) : ∀ c ∈ (pad2 n).data, isDigitCh c = true := by
  intro c hc
  unfold pad2 at hc
  split at hc
  · rw [String.data_append] at hc
    rcases List.mem_append.mp hc with h | h
    · have : c = '0' := by simpa using h
      subst this; rfl
    · exact natToStr_digits h
  · exact natToStr_digits hc

theorem pad3_digits (n : Nat) : ∀ c ∈ (pad3 n).data, isDigitCh c = true := by
  intro c hc
  unfold pad3 at hc
  split at hc
  · rw [String.data_append] at hc
    rcases List.mem_append.mp hc with h | h
    · have : c = '0' := by
        rcases List.mem_cons.mp h with h' | h'
        · exact h'
        · simpa using h'
      subst this; rfl
    · exact natToStr_digits h
  · split at hc
    · rw [String.data_append] at hc
      rcases List.mem_append.mp hc with h | h
      · have : c = '0' := by simpa using h
        subst this; rfl
      · exact natToStr_digits h
    · exact natToStr_digits hc

theorem pyReplaceChar_data (s : String) (c d : Char) :
    (pyReplaceChar s c d).data = s.data.map (fun x => if x = c then d else x) :=
  rfl

theorem map_replace_eq_self {c d : Char} {l : List Char} (h : c ∉ l) :
    l.map (fun x => if x = c then d else x) = l := by
  induction l with
  | nil => rfl
  | cons x xs ih =>
    rw [List.map_cons,
      if_neg (fun hx : x = c => h (hx ▸ List.mem_cons_self x xs)),
      ih (fun hx => h (List.mem_cons_of_mem x hx))]

theorem formatTimestamp_eq_spec (t : ℚ) : formatTimestamp t = specTimestamp t := by
  have hdot : isDigitCh '.' = false := rfl
  have h2 : ∀ n : Nat, ('.' : Char) ∉ (pad2 n).data :=
    fun n => not_mem_of_digits (pad2_digits n) hdot
  have h3 : ∀ n : Nat, ('.' : Char) ∉ (pad3 n).data :=
    fun n => not_mem_of_digits (pad3_digits n) hdot
  apply String.ext
  unfold formatTimestamp specTimestamp fmt063
  rw [pyReplaceChar_data]
  simp only [String.data_append, List.map_append]
  rw [map_replace_eq_self (h2 _), map_replace_eq_self (h2 _), map_replace_eq_self (h2 _),
    map_replace_eq_self (h3 _)]
  have hcolon : (":" : String).data.map (fun x => if x = '.' then ',' else x) =
      (":" : String).data := rfl
  have hdotmap : ("." : String).data.map (fun x => if x = '.' then ',' else x) =
      ("," : String).data := rfl
  rw [hcolon, hdotmap]
  simp

theorem digitsVal_cons_zero (l : List Char) : digitsVal ('0' :: l) = digitsVal l := rfl

theorem readNat_natDigits (n : Nat) : readNat (natDigits n) = some n := by
  have hempty : (natDigits n).isEmpty = false := by
    cases hd : natDigits n with
    | nil => exact absurd hd (natDigits_ne_nil n)
    | cons a l => rfl
  have hall : (natDigits n).all isDigitCh = true :=
    List.all_eq_true.mpr (fun c hc => natDigits_digits hc)
  simp [readNat, hempty, hall, digitsVal_natDigits]

theorem readNat_pad2 (n : Nat) : readNat (pad2 n).data = some n := by
  unfold pad2
  split
  · have hdata : (("0" : String) ++ natToStr n).data = '0' :: natDigits n := by
      rw [String.data_append]; rfl
    rw [hdata]
    have hempty : ('0' :: natDigits n).isEmpty = false := rfl
    have hall : ('0' :: natDigits n).all isDigitCh = true :=
      List.all_eq_true.mpr (fun c hc => by
        rcases List.mem_cons.mp hc with h | h
        · subst h; rfl
        · exact natDigits_digits h)
    simp [readNat, hempty, hall, digitsVal_cons_zero, digitsVal_natDigits]
  · exact readNat_natDigits n

theorem readNat_pad3 (n : Nat) : readNat (pad3 n).data = some n := by
  unfold pad3
  split
  · have hdata : (("00" : String) ++ natToStr n).data = '0' :: '0' :: natDigits n := by
      rw [String.data_append]; rfl
    rw [hdata]
    have hall : ('0' :: '0' :: natDigits n).all isDigitCh = true :=
      List.all_eq_true.mpr (fun c hc => by
        rcases List.mem_cons.mp hc with h | h
        · subst h; rfl
        · rcases List.mem_cons.mp h with h' | h'
          · subst h'; rfl
          · exact natDigits_digits h')
    have hempty : ('0' :: '0' :: natDigits n).isEmpty = false := rfl
    simp [readNat, hempty, hall, digitsVal_cons_zero, digitsVal_natDigits]
  · split
    · have hdata : (("0" : String) ++ natToStr n).data = '0' :: natDigits n := by
        rw [String.data_append]; rfl
      rw [hdata]
      have hempty : ('0' :: natDigits n).isEmpty = false := rfl
      have hall : ('0' :: natDigits n).all isDigitCh = true :=
        List.all_eq_true.mpr (fun c hc => by
          rcases List.mem_cons.mp hc with h | h
          · subst h; rfl
          · exact natDigits_digits h)
      simp [readNat, hempty, hall, digitsVal_cons_zero, digitsVal_natDigits]
    · exact readNat_natDigits n

theorem specTimestamp_data (t : ℚ) : (specTimestamp t).data =
    (pad2 (⌊t / 3600⌋).toNat).data ++ ':' ::
      ((pad2 (⌊fmod t 3600 / 60⌋).toNat).data ++ ':' ::
        ((pad2 ((rndHE (1000 * fmod t 60)).toNat / 1000)).data ++ ',' ::
          (pad3 ((rndHE (1000 * fmod t 60)).toNat % 1000)).data)) := by
  unfold specTimestamp
  have c1 : (":" : String).data = [':'] := rfl
  have c2 : ("," : String).data = [','] := rfl
  simp [String.data_append, c1, c2]

theorem specTimestamp_chars (t : ℚ) :
    ∀ c ∈ (specTimestamp t).data, isDigitCh c = true ∨ c = ':' ∨ c = ',' := by
  intro c hc
  rw [specTimestamp_data] at hc
  rcases List.mem_append.mp hc with h | h
  · exact Or.inl (pad2_digits _ c h)
  · rcases List.mem_cons.mp h with h | h
    · exact Or.inr (Or.inl h)
    · rcases List.mem_append.mp h with h | h
      · exact Or.inl (pad2_digits _ c h)
      · rcases List.mem_cons.mp h with h | h
        · exact Or.inr (Or.inl h)
        · rcases List.mem_append.mp h with h | h
          · exact Or.inl (pad2_digits _ c h)
          · rcases List.mem_cons.mp h with h | h
            · exact Or.inr (Or.inr h)
            · exact Or.inl (pad3_digits _ c h)

theorem not_mem_specTimestamp {c : Char} (t : ℚ) (hc1 : isDigitCh c = false)
    (hc2 : c ≠ ':') (hc3 : c ≠ ',') : c ∉ (specTimestamp t).data := by
  intro h
  rcases specTimestamp_chars t c h with h' | h' | h'
  · rw [hc1] at h'; cases h'
  · exact hc2 h'
  · exact hc3 h'

theorem readTimestamp_spec (t : ℚ) (ht : 0 ≤ t) :
    readTimestamp (specTimestamp t).data = some (msVal t) := by
  set H := (⌊t / 3600⌋).toNat with hH
  set M := (⌊fmod t 3600 / 60⌋).toNat with hM
  set n := (rndHE (1000 * fmod t 60)).toNat with hn
  have hcolon : ∀ (k : Nat), (':' : Char) ∉ (pad2 k).data :=
    fun k => not_mem_of_digits (pad2_digits k) rfl
  have hlast : (':' : Char) ∉ (pad2 (n / 1000)).data ++ ',' :: (pad3 (n % 1000)).data := by
    intro hmem
    rcases List.mem_append.mp hmem with h | h
    · exact hcolon _ h
    · rcases List.mem_cons.mp h with h' | h'
      · exact absurd h' (by decide)
      · exact not_mem_of_digits (pad3_digits _) (show isDigitCh ':' = false from rfl) h'
  have hsplit1 : splitOnCh ':' (specTimestamp t).data =
      [(pad2 H).data, (pad2 M).data,
        (pad2 (n / 1000)).data ++ ',' :: (pad3 (n % 1000)).data] := by
    rw [specTimestamp_data, splitOnCh_append_cons, splitOnCh_not_mem (hcolon H),
      splitOnCh_append_cons, splitOnCh_not_mem (hcolon M), splitOnCh_not_mem hlast]
    rfl
  have hsplit2 : splitOnCh ',' ((pad2 (n / 1000)).data ++ ',' :: (pad3 (n % 1000)).data) =
      [(pad2 (n / 1000)).data, (pad3 (n % 1000)).data] := by
    rw [splitOnCh_append_cons,
      splitOnCh_not_mem
        (not_mem_of_digits (pad2_digits _) (show isDigitCh ',' = false from rfl)),
      splitOnCh_not_mem
        (not_mem_of_digits (pad3_digits _) (show isDigitCh ',' = false from rfl))]
    rfl
  have hcompute : readTimestamp (specTimestamp t).data =
      some (H * 3600000 + M * 60000 + (n / 1000) * 1000 + n % 1000) := by
    unfold readTimestamp
    simp only [hsplit1, hsplit2, readNat_pad2, readNat_pad3]
  rw [hcompute]
  have hfH : (0 : ℤ) ≤ ⌊t / 3600⌋ := Int.floor_nonneg.mpr (by positivity)
  have hfm : (0 : ℚ) ≤ fmod t 3600 := fmod_nonneg (by norm_num)
  have hfM : (0 : ℤ) ≤ ⌊fmod t 3600 / 60⌋ := Int.floor_nonneg.mpr (by positivity)
  have hfs : (0 : ℚ) ≤ fmod t 60 := fmod_nonneg (by norm_num)
  have hrnd : (0 : ℤ) ≤ rndHE (1000 * fmod t 60) := rndHE_nonneg (by positivity)
  have hms := ms_decompose t
  unfold msVal
  congr 1
  omega

theorem parseTimestamp_format {t : ℚ} (ht : 0 ≤ t) :
    parseTimestamp (formatTimestamp t) = some (msVal t) := by
  unfold parseTimestamp
  rw [formatTimestamp_eq_spec]
  exact readTimestamp_spec t ht

theorem string_mk_data (s : String) : (⟨s.data⟩ : String) = s := by
  cases s
  rfl

theorem isEmpty_false_of_ne_nil {α : Type} {l : List α} (h : l ≠ []) :
    l.isEmpty = false := by
  cases l with
  | nil => exact absurd rfl h
  | cons a as => rfl

theorem not_mem_formatTimestamp {c : Char} (t : ℚ) (hc1 : isDigitCh c = false)
    (hc2 : c ≠ ':') (hc3 : c ≠ ',') : c ∉ (formatTimestamp t).data := by
  rw [formatTimestamp_eq_spec]
  exact not_mem_specTimestamp t hc1 hc2 hc3

theorem tsLine_data (s : Segment) : (tsLine s).data =
    (formatTimestamp s.start).data ++
      ' ' :: ('-' :: '-' :: '>' :: ' ' :: (formatTimestamp s.stop).data) := by
  unfold tsLine
  have harrow : (" --> " : String).data = [' ', '-', '-', '>', ' '] := rfl
  simp [String.data_append, harrow]

theorem not_mem_tsLine {c : Char} (s : Segment) (hc1 : isDigitCh c = false)
    (hc2 : c ≠ ':') (hc3 : c ≠ ',') (hc4 : c ≠ ' ') (hc5 : c ≠ '-') (hc6 : c ≠ '>') :
    c ∉ (tsLine s).data := by
  rw [tsLine_data]
  intro h
  rcases List.mem_append.mp h with h | h
  · exact not_mem_formatTimestamp _ hc1 hc2 hc3 h
  · rcases List.mem_cons.mp h with h | h
    · exact hc4 h
    · rcases List.mem_cons.mp h with h | h
      · exact hc5 h
      · rcases List.mem_cons.mp h with h | h
        · exact hc5 h
        · rcases List.mem_cons.mp h with h | h
          · exact hc6 h
          · rcases List.mem_cons.mp h with h | h
            · exact hc4 h
            · exact not_mem_formatTimestamp _ hc1 hc2 hc3 h

theorem readTsLine_tsLine (s : Segment) (h1 : 0 ≤ s.start) (h2 : 0 ≤ s.stop) :
    readTsLine (tsLine s).data = some (msVal s.start, msVal s.stop) := by
  have hs1 : (' ' : Char) ∉ (formatTimestamp s.start).data :=
    not_mem_formatTimestamp _ rfl (by decide) (by decide)
  have hs2 : (' ' : Char) ∉ (formatTimestamp s.stop).data :=
    not_mem_formatTimestamp _ rfl (by decide) (by decide)
  have harr : (' ' : Char) ∉ ['-', '-', '>'] := by decide
  have hsplit : splitOnCh ' ' (tsLine s).data =
      [(formatTimestamp s.start).data, ['-', '-', '>'], (formatTimestamp s.stop).data] := by
    rw [tsLine_data, splitOnCh_append_cons, splitOnCh_not_mem hs1,
      show ('-' :: '-' :: '>' :: ' ' :: (formatTimestamp s.stop).data) =
        ['-', '-', '>'] ++ ' ' :: (formatTimestamp s.stop).data from rfl,
      splitOnCh_append_cons, splitOnCh_not_mem harr, splitOnCh_not_mem hs2]
    rfl
  have p1 : readTimestamp (formatTimestamp s.start).data = some (msVal s.start) :=
    parseTimestamp_format h1
  have p2 : readTimestamp (formatTimestamp s.stop).data = some (msVal s.stop) :=
    parseTimestamp_format h2
  unfold readTsLine
  simp [hsplit, p1, p2]

theorem entryBlock_data (i : Nat) (s : Segment) : (entryBlock i s).data =
    natDigits i ++ '\n' ::
      ((tsLine s).data ++ '\n' :: ((pyStrip s.text).data ++ ['\n', '\n'])) := by
  unfold entryBlock
  have hn1 : ("\n" : String).data = ['\n'] := rfl
  have hn2 : ("\n\n" : String).data = ['\n', '\n'] := rfl
  have hd : (natToStr i).data = natDigits i := rfl
  simp [String.data_append, hn1, hn2, hd]

theorem splitOnCh_srtAux_cons (i : Nat) (s : Segment) (rest : List Segment) :
    splitOnCh '\n' (srtAux i (s :: rest)).data =
      natDigits i :: (tsLine s).data ::
        (splitOnCh '\n' (pyStrip s.text).data ++
          [] :: splitOnCh '\n' (srtAux (i + 1) rest).data) := by
  have hno1 : ('\n' : Char) ∉ natDigits i :=
    not_mem_of_digits (fun c hc => natDigits_digits hc) rfl
  have hno2 : ('\n' : Char) ∉ (tsLine s).data :=
    not_mem_tsLine s rfl (by decide) (by decide) (by decide) (by decide) (by decide)
  have heq : (srtAux i (s :: rest)).data =
      natDigits i ++ '\n' ::
        ((tsLine s).data ++ '\n' ::
          ((pyStrip s.text).data ++ '\n' :: '\n' :: (srtAux (i + 1) rest).data)) := by
    show (entryBlock i s ++ srtAux (i + 1) rest).data = _
    rw [String.data_append, entryBlock_data]
    simp [List.append_assoc]
  rw [heq, splitOnCh_append_cons, splitOnCh_not_mem hno1, splitOnCh_append_cons,
    splitOnCh_not_mem hno2, splitOnCh_append_cons,
    show splitOnCh '\n' ('\n' :: (srtAux (i + 1) rest).data) =
      [] :: splitOnCh '\n' (srtAux (i + 1) rest).data from by rw [splitOnCh, if_pos rfl]]
  simp

theorem readBlocks_srtAux (segs : List Segment) :
    ∀ (i fuel : Nat),
      (splitOnCh '\n' (srtAux i segs).data).length ≤ fuel →
      (∀ s ∈ segs, 0 ≤ s.start ∧ 0 ≤ s.stop ∧
        [] ∉ splitOnCh '\n' (pyStrip s.text).data) →
      readBlocks fuel (splitOnCh '\n' (srtAux i segs).data) =
        some (segs.map fun s => (msVal s.start, msVal s.stop, pyStrip s.text)) := by
  induction segs with
  | nil =>
    intro i fuel hf hseg
    have hdata : (srtAux i []).data = [] := rfl
    rw [hdata] at hf ⊢
    rw [show splitOnCh '\n' ([] : List Char) = [[]] from rfl] at hf ⊢
    cases fuel with
    | zero => simp at hf
    | succ f => simp [readBlocks]
  | cons s rest ih =>
    intro i fuel hf hseg
    rw [splitOnCh_srtAux_cons] at hf ⊢
    obtain ⟨hstart, hstop, htext⟩ := hseg s (List.mem_cons_self s rest)
    have hrestseg : ∀ x ∈ rest, 0 ≤ x.start ∧ 0 ≤ x.stop ∧
        [] ∉ splitOnCh '\n' (pyStrip x.text).data :=
      fun x hx => hseg x (List.mem_cons_of_mem s hx)
    cases fuel with
    | zero => simp at hf
    | succ f =>
      have hne : (natDigits i).isEmpty = false := isEmpty_false_of_ne_nil (natDigits_ne_nil i)
      have htake := takeWhile_append_stop (fun x => !x.isEmpty)
        (splitOnCh '\n' (pyStrip s.text).data)
        (splitOnCh '\n' (srtAux (i + 1) rest).data) []
        (fun x hx => by
          have hxe := isEmpty_false_of_ne_nil (fun hx0 => htext (hx0 ▸ hx))
          simp [hxe])
        rfl
      have hlen : (splitOnCh '\n' (srtAux (i + 1) rest).data).length ≤ f := by
        simp [List.length_append] at hf
        omega
      rw [readBlocks]
      simp only [hne, Bool.false_eq_true, if_false, readNat_natDigits,
        readTsLine_tsLine s hstart hstop, htake.1, htake.2, List.drop_succ_cons,
        List.drop_zero, ih (i + 1) f hlen hrestseg, joinLines_splitOnCh, string_mk_data,
        List.map_cons]

theorem readSRT_srtContent (segs : List Segment)
    (hseg : ∀ s ∈ segs, 0 ≤ s.start ∧ 0 ≤ s.stop ∧
      [] ∉ splitOnCh '\n' (pyStrip s.text).data) :
    readSRT (srtContent segs) =
      some (segs.map fun s => (msVal s.start, msVal s.stop, pyStrip s.text)) := by
  unfold readSRT srtContent
  exact readBlocks_srtAux segs 1 _ (le_refl _) hseg

theorem string_foldl_append (l : List String) : ∀ (x y : String),
    l.foldl (fun r s => r ++ s) (x ++ y) = x ++ l.foldl (fun r s => r ++ s) y := by
  induction l with
  | nil => intro x y; rfl
  | cons a as ih =>
    intro x y
    simp only [List.foldl_cons]
    rw [String.append_assoc, ih]

theorem string_join_cons (a : String) (l : List String) :
    String.join (a :: l) = a ++ String.join l := by
  have h0 : ("" ++ a : String) = a := by
    apply String.ext
    rw [String.data_append]
    rfl
  have ha : (a ++ "" : String) = a := by
    apply String.ext
    rw [String.data_append]
    simp
  calc String.join (a :: l) = l.foldl (fun r s => r ++ s) ("" ++ a) := rfl
    _ = l.foldl (fun r s => r ++ s) (a ++ "") := by rw [h0, ha]
    _ = a ++ l.foldl (fun r s => r ++ s) "" := string_foldl_append l a ""
    _ = a ++ String.join l := rfl

theorem srtAux_eq_join (segs : List Segment) : ∀ i : Nat,
    srtAux i segs = String.join ((segs.enumFrom i).map fun p => entryBlock p.1 p.2) := by
  induction segs with
  | nil => intro i; rfl
  | cons s rest ih =>
    intro i
    show entryBlock i s ++ srtAux (i + 1) rest = _
    rw [show (s :: rest).enumFrom i = (i, s) :: rest.enumFrom (i + 1) from rfl,
      List.map_cons, string_join_cons, ← ih (i + 1)]

theorem lines_srtAux (segs : List Segment) : ∀ i : Nat,
    splitOnCh '\n' (srtAux i segs).data =
      ((segs.enumFrom i).flatMap fun p =>
        natDigits p.1 :: (tsLine p.2).data ::
          (splitOnCh '\n' (pyStrip p.2.text).data ++ [[]])) ++ [[]] := by
  induction segs with
  | nil => intro i; rfl
  | cons s rest ih =>
    intro i
    rw [splitOnCh_srtAux_cons, ih (i + 1),
      show (s :: rest).enumFrom i = (i, s) :: rest.enumFrom (i + 1) from rfl,
      List.flatMap_cons]
    simp [List.append_assoc]

theorem intercalate_single (a : String) : String.intercalate " " [a] = a := rfl

theorem intercalate_pair (a b : String) :
    String.intercalate " " [a, b] = a ++ " " ++ b := rfl

theorem format_time_of_ge {s : ℚ} (h : 60 ≤ s) :
    format_time s =
      if (⌊fmod s 60⌋).toNat = 0 then natToStr (⌊s / 60⌋).toNat ++ " min"
      else natToStr (⌊s / 60⌋).toNat ++ " min " ++
        natToStr (⌊fmod s 60⌋).toNat ++ " sec" := by
  have hm : 0 < (⌊s / 60⌋).toNat := by
    have h1 : (1 : ℚ) ≤ s / 60 := by
      rw [le_div_iff₀ (by norm_num : (0:ℚ) < 60)]
      linarith
    have h2 : (1 : ℤ) ≤ ⌊s / 60⌋ := Int.le_floor.mpr (by exact_mod_cast h1)
    omega
  simp only [format_time, if_neg (not_lt.mpr h), if_pos hm]
  by_cases hr : (⌊fmod s 60⌋).toNat = 0
  · rw [if_pos hr, hr]
    norm_num [intercalate_single]
  · rw [if_neg hr, if_pos (Nat.pos_of_ne_zero hr)]
    rw [show ([natToStr (⌊s / 60⌋).toNat ++ " min"] ++
        [natToStr (⌊fmod s 60⌋).toNat ++ " sec"]) =
      [natToStr (⌊s / 60⌋).toNat ++ " min", natToStr (⌊fmod s 60⌋).toNat ++ " sec"] from rfl]
    rw [intercalate_pair]
    apply String.ext
    have d1 : (" min" : String).data = [' ', 'm', 'i', 'n'] := rfl
    have d2 : (" min " : String).data = [' ', 'm', 'i', 'n', ' '] := rfl
    have d3 : (" " : String).data = [' '] := rfl
    simp [String.data_append, d1, d2, d3]

theorem append_ne_empty_right (a b : String) (hb : b.data ≠ []) : a ++ b ≠ "" := by
  intro hc
  have h := congrArg String.data hc
  rw [String.data_append] at h
  rw [show ("" : String).data = [] from rfl] at h
  exact hb (List.append_eq_nil.mp h).2

theorem msVal_mono {a b : ℚ} (h : a ≤ b) : msVal a ≤ msVal b :=
  Int.toNat_le_toNat (rndHE_mono (by linarith))

theorem fmod_eval {x y : ℚ} {k : ℤ} (h : ⌊x / y⌋ = k) : fmod x y = x - y * k := by
  unfold fmod
  rw [h]

/-- C1: for every non-negative time t, the timestamp the serializer renders is
exactly the field-by-field format the specification describes: HH is
floor (t / 3600) zero-padded to two digits and widening beyond two digits
without wrapping, MM is floor ((t mod 3600) / 60) zero-padded to two digits,
and the seconds part is t mod 60 correctly rounded to exactly three fractional
digits with a two-digit zero-padded integer part and a comma in place of the
decimal point; the Int.toNat coercions in specTimestamp are exact, not
clamping, as the second conjunct states. -/
theorem thmC1 (t : ℚ) (h : 0 ≤ t) :
    formatTimestamp t = specTimestamp t ∧
    ((⌊t / 3600⌋.toNat : ℤ) = ⌊t / 3600⌋ ∧
      (⌊fmod t 3600 / 60⌋.toNat : ℤ) = ⌊fmod t 3600 / 60⌋ ∧
      ((rndHE (1000 * fmod t 60)).toNat : ℤ) = rndHE (1000 * fmod t 60)) := by
  have hf1 : (0 : ℚ) ≤ fmod t 3600 := fmod_nonneg (by norm_num)
  have hf2 : (0 : ℚ) ≤ fmod t 60 := fmod_nonneg (by norm_num)
  refine ⟨formatTimestamp_eq_spec t, ?_, ?_, ?_⟩
  · exact Int.toNat_of_nonneg (Int.floor_nonneg.mpr (by positivity))
  · exact Int.toNat_of_nonneg (Int.floor_nonneg.mpr (div_nonneg hf1 (by norm_num)))
  · exact Int.toNat_of_nonneg (rndHE_nonneg (mul_nonneg (by norm_num) hf2))

theorem thmC1_witness :
    (0 : ℚ) ≤ 720001 / 2 ∧ formatTimestamp (720001 / 2) = "100:00:00,500" := by
  have h1 : ⌊(720001 / 2 : ℚ) / 3600⌋ = (100 : ℤ) := by
    rw [Int.floor_eq_iff]
    norm_num
  have h2 : fmod (720001 / 2 : ℚ) 3600 = 1 / 2 := by
    rw [fmod_eval h1]
    norm_num
  have h3 : ⌊(1 / 2 : ℚ) / 60⌋ = (0 : ℤ) := by
    rw [Int.floor_eq_iff]
    norm_num
  have h4 : ⌊(720001 / 2 : ℚ) / 60⌋ = (6000 : ℤ) := by
    rw [Int.floor_eq_iff]
    norm_num
  have h5 : fmod (720001 / 2 : ℚ) 60 = 1 / 2 := by
    rw [fmod_eval h4]
    norm_num
  have h6 : rndHE (1000 * (1 / 2 : ℚ)) = (500 : ℤ) := by
    rw [show (1000 * (1 / 2 : ℚ)) = ((500 : ℤ) : ℚ) by norm_num, rndHE_intCast]
  refine ⟨by norm_num, ?_⟩
  rw [(thmC1 (720001 / 2) (by norm_num)).1]
  unfold specTimestamp
  rw [h2, h5, h1, h3, h6]
  decide

/-- C10: there is a valid segment time, here t = 59.9997 seconds, whose
three-fractional-digit rounding of t mod 60 reaches 60000 milliseconds while
the minute field is computed by floor from the unrounded t, so the rendered
timestamp carries a seconds field equal to sixty with no carry into the
minute field. -/
theorem thmC10 : formatTimestamp (599997 / 10000) = "00:00:60,000" := by
  have h1 : ⌊(599997 / 10000 : ℚ) / 3600⌋ = (0 : ℤ) := by
    rw [Int.floor_eq_iff]
    norm_num
  have h2 : fmod (599997 / 10000 : ℚ) 3600 = 599997 / 10000 := by
    rw [fmod_eval h1]
    norm_num
  have h3 : ⌊(599997 / 10000 : ℚ) / 60⌋ = (0 : ℤ) := by
    rw [Int.floor_eq_iff]
    norm_num
  have h4 : fmod (599997 / 10000 : ℚ) 60 = 599997 / 10000 := by
    rw [fmod_eval h3]
    norm_num
  have h5 : ⌊(599997 / 10000 : ℚ) / 60⌋ = (0 : ℤ) := h3
  have h6 : rndHE (1000 * (599997 / 10000 : ℚ)) = (60000 : ℤ) := by
    apply rndHE_eq_up
    · norm_num
    · norm_num
  rw [formatTimestamp_eq_spec]
  unfold specTimestamp
  rw [h2, h4, h1, h6]
  rw [show ⌊(599997 / 10000 : ℚ) / 60⌋ = (0 : ℤ) from h5]
  decide

/-- C3: for every seconds value at least sixty, format_time computes minutes
as floor (seconds / 60) and remaining as floor (seconds mod 60) and returns
the space-join of the minute part (always present here, since minutes is
positive) and the second part (present exactly when remaining is positive),
so a zero remainder yields just the minute part with no trailing zero-second
part, and minutes are not capped at fifty-nine. -/
theorem thmC3 (s : ℚ) (h : 60 ≤ s) :
    format_time s =
      if (⌊fmod s 60⌋).toNat = 0 then natToStr (⌊s / 60⌋).toNat ++ " min"
      else natToStr (⌊s / 60⌋).toNat ++ " min " ++
        natToStr (⌊fmod s 60⌋).toNat ++ " sec" :=
  format_time_of_ge h

theorem thmC3_witness :
    format_time 60 = "1 min" ∧ format_time 3661 = "61 min 1 sec" := by
  constructor
  · have h1 : ⌊(60 : ℚ) / 60⌋ = (1 : ℤ) := by
      rw [Int.floor_eq_iff]
      norm_num
    have h2 : fmod (60 : ℚ) 60 = 0 := by
      rw [fmod_eval h1]
      norm_num
    rw [thmC3 60 (by norm_num), h2, h1,
      show ⌊(0 : ℚ)⌋ = (0 : ℤ) from by norm_num]
    decide
  · have h1 : ⌊(3661 : ℚ) / 60⌋ = (61 : ℤ) := by
      rw [Int.floor_eq_iff]
      norm_num
    have h2 : fmod (3661 : ℚ) 60 = 1 := by
      rw [fmod_eval h1]
      norm_num
    have h3 : ⌊(1 : ℚ)⌋ = (1 : ℤ) := by
      rw [Int.floor_eq_iff]
      norm_num
    rw [thmC3 3661 (by norm_num), h2, h1, h3]
    norm_num
    decide

/-- C4: for every seconds value below sixty, format_time returns the value
correctly rounded to two decimal places followed by the sec unit label. -/
theorem thmC4 (s : ℚ) (h : s < 60) : format_time s = fmtF2 s ++ " sec" := by
  simp only [format_time, if_pos h]

theorem thmC4_witness : format_time 45 = "45.00 sec" := by
  rw [thmC4 45 (by norm_num)]
  have h1 : rndHE (100 * (45 : ℚ)) = (4500 : ℤ) := by
    rw [show (100 * (45 : ℚ)) = ((4500 : ℤ) : ℚ) by norm_num, rndHE_intCast]
  unfold fmtF2
  rw [if_neg (by norm_num), h1]
  decide

/-- C5: serializing the empty segment list yields the empty string, zero
blocks, and is a value, not an error. -/
theorem thmC5 : srtContent [] = "" := rfl

/-- C9: for every non-negative seconds value, format_time returns a non-empty
string: below sixty the sec unit label is always appended, and at sixty or
above the minute part is always present because minutes is positive. -/
theorem thmC9 (s : ℚ) (h : 0 ≤ s) : format_time s ≠ "" := by
  by_cases h60 : s < 60
  · simp only [format_time, if_pos h60]
    exact append_ne_empty_right _ _ (by decide)
  · rw [format_time_of_ge (not_lt.mp h60)]
    split
    · exact append_ne_empty_right _ _ (by decide)
    · exact append_ne_empty_right _ _ (by decide)

theorem thmC9_witness : (0 : ℚ) ≤ 0 ∧ format_time 0 ≠ "" :=
  ⟨le_refl 0, thmC9 0 (le_refl 0)⟩

/-- C2: the serialized output is exactly the concatenation, in input order, of
one block per segment whose index is its one-based position; at line level the
output consists, per segment in order, of the index line (the decimal digits
of the position), the timestamp line, the lines of the stripped text, and
exactly one empty line, the whole followed by one final empty fragment that
represents the file ending in a newline. -/
theorem thmC2 (segs : List Segment) :
    srtContent segs = String.join ((segs.enumFrom 1).map fun p => entryBlock p.1 p.2) ∧
    splitOnCh '\n' (srtContent segs).data =
      ((segs.enumFrom 1).flatMap fun p =>
        natDigits p.1 :: (tsLine p.2).data ::
          (splitOnCh '\n' (pyStrip p.2.text).data ++ [[]])) ++ [[]] :=
  ⟨srtAux_eq_join segs 1, lines_srtAux segs 1⟩

/-- C6 counterexample: the round-trip claim fails as stated, because the
serializer rounds times to whole milliseconds. For the single segment with
start 1/10000 of a second, end one second and text Hi, the standard reader
recovers a start timestamp of zero milliseconds, and zero is not the original
start time. -/
theorem thmC6_cex :
    readSRT (srtContent [⟨1/10000, 1, "Hi"⟩]) = some [(0, 1000, "Hi")] ∧
    ((0 : ℕ) : ℚ) / 1000 ≠ (1/10000 : ℚ) := by
  constructor
  · have hseg : ∀ s ∈ ([⟨1/10000, 1, "Hi"⟩] : List Segment),
        0 ≤ s.start ∧ 0 ≤ s.stop ∧ [] ∉ splitOnCh '\n' (pyStrip s.text).data := by
      intro s hs
      simp at hs
      subst hs
      exact ⟨by norm_num, by norm_num, by decide⟩
    rw [readSRT_srtContent _ hseg]
    have hm1 : msVal (1/10000 : ℚ) = 0 := by
      unfold msVal
      rw [show rndHE (1000 * (1/10000 : ℚ)) = (0 : ℤ) from
        rndHE_eq_down (by norm_num) (by norm_num)]
      rfl
    have hm2 : msVal (1 : ℚ) = 1000 := by
      unfold msVal
      rw [show (1000 * (1 : ℚ)) = ((1000 : ℤ) : ℚ) by norm_num, rndHE_intCast]
      rfl
    simp only [List.map_cons, List.map_nil]
    rw [hm1, hm2]
    decide
  · norm_num

/-- C6 (amended): for segments whose start and end times are non-negative
whole numbers of milliseconds and whose stripped text contains no empty line,
the standard reader recovers from the serialized output the original segment
count, the original order, and for each entry the start time, the end time
(via the millisecond values, which denote the original times exactly) and the
trimmed text. -/
theorem thmC6 (segs : List Segment)
    (h : ∀ s ∈ segs, (∃ a : ℕ, s.start = (a : ℚ) / 1000) ∧
      (∃ b : ℕ, s.stop = (b : ℚ) / 1000) ∧
      [] ∉ splitOnCh '\n' (pyStrip s.text).data) :
    readSRT (srtContent segs) =
      some (segs.map fun s => (msVal s.start, msVal s.stop, pyStrip s.text)) ∧
    ∀ s ∈ segs, (msVal s.start : ℚ) / 1000 = s.start ∧
      (msVal s.stop : ℚ) / 1000 = s.stop := by
  have hms : ∀ a : ℕ, msVal ((a : ℚ) / 1000) = a := by
    intro a
    unfold msVal
    rw [show (1000 : ℚ) * ((a : ℚ) / 1000) = ((a : ℤ) : ℚ) by push_cast; ring,
      rndHE_intCast, Int.toNat_natCast]
  constructor
  · apply readSRT_srtContent
    intro s hs
    obtain ⟨⟨a, ha⟩, ⟨b, hb⟩, ht⟩ := h s hs
    exact ⟨by rw [ha]; positivity, by rw [hb]; positivity, ht⟩
  · intro s hs
    obtain ⟨⟨a, ha⟩, ⟨b, hb⟩, _⟩ := h s hs
    constructor
    · rw [ha, hms a]
    · rw [hb, hms b]

theorem thmC6_witness :
    readSRT (srtContent [⟨0, 3/2, " Hi "⟩, ⟨3/2, 2, "ab"⟩]) =
      some [(0, 1500, "Hi"), (1500, 2000, "ab")] := by
  have hhyp : ∀ s ∈ ([⟨0, 3/2, " Hi "⟩, ⟨3/2, 2, "ab"⟩] : List Segment),
      (∃ a : ℕ, s.start = (a : ℚ) / 1000) ∧ (∃ b : ℕ, s.stop = (b : ℚ) / 1000) ∧
      [] ∉ splitOnCh '\n' (pyStrip s.text).data := by
    intro s hs
    simp at hs
    rcases hs with hs | hs <;> subst hs
    · exact ⟨⟨0, by norm_num⟩, ⟨1500, by norm_num⟩, by decide⟩
    · exact ⟨⟨1500, by norm_num⟩, ⟨2000, by norm_num⟩, by decide⟩
  have h := (thmC6 [⟨0, 3/2, " Hi "⟩, ⟨3/2, 2, "ab"⟩] hhyp).1
  rw [h]
  have hm0 : msVal (0 : ℚ) = 0 := by
    unfold msVal
    rw [show (1000 * (0 : ℚ)) = ((0 : ℤ) : ℚ) by norm_num, rndHE_intCast]
    rfl
  have hm15 : msVal (3/2 : ℚ) = 1500 := by
    unfold msVal
    rw [show (1000 * (3/2 : ℚ)) = ((1500 : ℤ) : ℚ) by norm_num, rndHE_intCast]
    rfl
  have hm2 : msVal (2 : ℚ) = 2000 := by
    unfold msVal
    rw [show (1000 * (2 : ℚ)) = ((2000 : ℤ) : ℚ) by norm_num, rndHE_intCast]
    rfl
  simp only [List.map_cons, List.map_nil]
  rw [hm0, hm15, hm2]
  decide

theorem flatMap_msVal (segs : List Segment) :
    (segs.flatMap fun s => [msVal s.start, msVal s.stop]) =
      (segs.flatMap fun s => [s.start, s.stop]).map msVal := by
  induction segs with
  | nil => rfl
  | cons a rest ih => simp [List.flatMap_cons, ih]

/-- C7: for every segment list whose start and end times are non-negative and
chronologically non-decreasing, the millisecond values rendered in the
serialized output are monotonically non-decreasing across consecutive
timestamps in output order, and each rendered timestamp string parses back to
exactly that millisecond value. -/
theorem thmC7 (segs : List Segment)
    (hchron : List.Chain' (· ≤ ·) (segs.flatMap fun s => [s.start, s.stop]))
    (hnn : ∀ s ∈ segs, 0 ≤ s.start ∧ 0 ≤ s.stop) :
    List.Chain' (· ≤ ·) (segs.flatMap fun s => [msVal s.start, msVal s.stop]) ∧
    ∀ s ∈ segs, parseTimestamp (formatTimestamp s.start) = some (msVal s.start) ∧
      parseTimestamp (formatTimestamp s.stop) = some (msVal s.stop) := by
  constructor
  · rw [flatMap_msVal]
    exact List.chain'_map_of_chain' msVal (fun a b hab => msVal_mono hab) hchron
  · intro s hs
    exact ⟨parseTimestamp_format (hnn s hs).1, parseTimestamp_format (hnn s hs).2⟩

theorem thmC7_witness :
    List.Chain' (· ≤ ·) (([⟨0, 1, "a"⟩, ⟨1, 2, "b"⟩] : List Segment).flatMap
      fun s => [s.start, s.stop]) ∧
    List.Chain' (· ≤ ·) (([⟨0, 1, "a"⟩, ⟨1, 2, "b"⟩] : List Segment).flatMap
      fun s => [msVal s.start, msVal s.stop]) := by
  have hchron : List.Chain' (· ≤ ·) (([⟨0, 1, "a"⟩, ⟨1, 2, "b"⟩] : List Segment).flatMap
      fun s => [s.start, s.stop]) := by
    simp [List.chain'_cons]
  refine ⟨hchron, (thmC7 [⟨0, 1, "a"⟩, ⟨1, 2, "b"⟩] hchron ?_).1⟩
  intro s hs
  simp at hs
  rcases hs with hs | hs <;> subst hs
  · exact ⟨by norm_num, by norm_num⟩
  · exact ⟨by norm_num, by norm_num⟩

theorem formatTimestamp_eval {t : ℚ} {H M n : ℤ}
    (h1 : ⌊t / 3600⌋ = H) (h2 : ⌊fmod t 3600 / 60⌋ = M)
    (h3 : rndHE (1000 * fmod t 60) = n) :
    formatTimestamp t = pad2 H.toNat ++ ":" ++ pad2 M.toNat ++ ":" ++
      pad2 (n.toNat / 1000) ++ "," ++ pad3 (n.toNat % 1000) := by
  rw [formatTimestamp_eq_spec]
  unfold specTimestamp
  rw [h1, h2, h3]

theorem formatTimestamp_zero : formatTimestamp 0 = "00:00:00,000" := by
  have h1 : ⌊(0 : ℚ) / 3600⌋ = (0 : ℤ) := by
    rw [Int.floor_eq_iff]
    norm_num
  have hm : fmod (0 : ℚ) 3600 = 0 := by
    rw [fmod_eval h1]
    norm_num
  have h3 : ⌊(0 : ℚ) / 60⌋ = (0 : ℤ) := by
    rw [Int.floor_eq_iff]
    norm_num
  have hm60 : fmod (0 : ℚ) 60 = 0 := by
    rw [fmod_eval h3]
    norm_num
  have h4 : rndHE (1000 * fmod (0 : ℚ) 60) = (0 : ℤ) := by
    rw [hm60, show (1000 * (0 : ℚ)) = ((0 : ℤ) : ℚ) by norm_num, rndHE_intCast]
  have h2 : ⌊fmod (0 : ℚ) 3600 / 60⌋ = (0 : ℤ) := by
    rw [hm]
    exact h3
  rw [formatTimestamp_eval h1 h2 h4]
  decide

theorem formatTimestamp_one : formatTimestamp 1 = "00:00:01,000" := by
  have h1 : ⌊(1 : ℚ) / 3600⌋ = (0 : ℤ) := by
    rw [Int.floor_eq_iff]
    norm_num
  have hm : fmod (1 : ℚ) 3600 = 1 := by
    rw [fmod_eval h1]
    norm_num
  have h3 : ⌊(1 : ℚ) / 60⌋ = (0 : ℤ) := by
    rw [Int.floor_eq_iff]
    norm_num
  have hm60 : fmod (1 : ℚ) 60 = 1 := by
    rw [fmod_eval h3]
    norm_num
  have h4 : rndHE (1000 * fmod (1 : ℚ) 60) = (1000 : ℤ) := by
    rw [hm60, show (1000 * (1 : ℚ)) = ((1000 : ℤ) : ℚ) by norm_num, rndHE_intCast]
  have h2 : ⌊fmod (1 : ℚ) 3600 / 60⌋ = (0 : ℤ) := by
    rw [hm]
    exact h3
  rw [formatTimestamp_eval h1 h2 h4]
  decide

theorem formatTimestamp_two : formatTimestamp 2 = "00:00:02,000" := by
  have h1 : ⌊(2 : ℚ) / 3600⌋ = (0 : ℤ) := by
    rw [Int.floor_eq_iff]
    norm_num
  have hm : fmod (2 : ℚ) 3600 = 2 := by
    rw [fmod_eval h1]
    norm_num
  have h3 : ⌊(2 : ℚ) / 60⌋ = (0 : ℤ) := by
    rw [Int.floor_eq_iff]
    norm_num
  have hm60 : fmod (2 : ℚ) 60 = 2 := by
    rw [fmod_eval h3]
    norm_num
  have h4 : rndHE (1000 * fmod (2 : ℚ) 60) = (2000 : ℤ) := by
    rw [hm60, show (1000 * (2 : ℚ)) = ((2000 : ℤ) : ℚ) by norm_num, rndHE_intCast]
  have h2 : ⌊fmod (2 : ℚ) 3600 / 60⌋ = (0 : ℤ) := by
    rw [hm]
    exact h3
  rw [formatTimestamp_eval h1 h2 h4]
  decide

/-- C8: the claim that a failed operation leaves no partially written caption
file does not hold of the code. With a transcription result of two segments
and an I/O error raised by the fourth write call, transcribe_audio raises (the
except branch of lines 74-78 re-raises without removing the file), yet the
caption file on disk holds exactly the first block: a non-empty proper prefix
of the complete serialization, not the empty file and not the full output. -/
theorem thmC8 :
    transcribe_audio (.ok ⟨"", [⟨0, 1, "Hi"⟩, ⟨1, 2, "yo"⟩]⟩) 3 =
      ⟨some "1\n00:00:00,000 --> 00:00:01,000\nHi\n\n", true⟩ ∧
    ("1\n00:00:00,000 --> 00:00:01,000\nHi\n\n" : String) ≠ "" ∧
    "1\n00:00:00,000 --> 00:00:01,000\nHi\n\n" ≠
      srtContent [⟨0, 1, "Hi"⟩, ⟨1, 2, "yo"⟩] := by
  have hcalls : srtWriteCalls [⟨0, 1, "Hi"⟩, ⟨1, 2, "yo"⟩] =
      ["1\n", "00:00:00,000 --> 00:00:01,000\n", "Hi\n\n",
        "2\n", "00:00:01,000 --> 00:00:02,000\n", "yo\n\n"] := by
    simp only [srtWriteCalls, tsLine, List.enumFrom, List.flatMap_cons, List.flatMap_nil]
    rw [formatTimestamp_zero, formatTimestamp_one, formatTimestamp_two]
    decide
  have hfull : srtContent [⟨0, 1, "Hi"⟩, ⟨1, 2, "yo"⟩] =
      "1\n00:00:00,000 --> 00:00:01,000\nHi\n\n2\n00:00:01,000 --> 00:00:02,000\nyo\n\n" := by
    simp only [srtContent, srtAux, entryBlock, tsLine]
    rw [formatTimestamp_zero, formatTimestamp_one, formatTimestamp_two]
    decide
  refine ⟨?_, by decide, ?_⟩
  · unfold transcribe_audio
    dsimp only
    rw [hcalls]
    decide
  · rw [hfull]
    decide
